import Mathlib

/-!
Verification of the Trikono game engine.

Shallow embedding of the repository's engine sources:
- tiles.js  : tile catalog, rotation, sum/triple helpers
- board.js  : sparse triangular board, adjacency tables, placement
              legality, scoring (triple / bridge / hexagon bonuses)
- game.js   : turn state machine (start, placeTile, drawTile, passTurn),
              starter selection, stalemate, snapshots

JS numbers are modelled as Int where values can be negative (coordinates,
scores) and Nat for sizes/indices.  The JS Map of board cells is modelled
as an association list with first-match lookup; Map.set is modelled as
erase-then-cons, which preserves both lookup semantics and size.
Actions return Option (Game x Result): some models a normal typed return,
none models a JS TypeError fault (indexing a missing player), so that
claims about faults are expressible.
-/

/-- Corner value triple: models the JS 3-element values array.
Field a is values[0], b is values[1], c is values[2]. -/
structure V3 where
  a : Int
  b : Int
  c : Int
deriving DecidableEq, Repr

/-- values[i] for the corner indices 0,1,2 used by the adjacency tables. -/
def V3.idx (v : V3) : Nat → Int
  | 0 => v.a
  | 1 => v.b
  | _ => v.c

/-- A catalog tile: {id, values:[a,b,c]} with a <= b <= c (tiles.js). -/
structure Tile where
  id : Nat
  values : V3
deriving DecidableEq, Repr

/-- tiles.js generateAll: all 56 tiles, values sorted ascending,
ids in lexicographic generation order. -/
def Tiles.generateAll : List Tile :=
  let triples :=
    (List.range 6).flatMap fun a =>
      ((List.range 6).drop a).flatMap fun b =>
        ((List.range 6).drop b).map fun c =>
          V3.mk (a : Int) (b : Int) (c : Int)
  triples.enum.map fun p => ⟨p.1, p.2⟩

/-- tiles.js getPlacedValues: cyclic rotation of the corner values.
Rotation 0 -> [a,b,c]; 1 -> [c,a,b]; anything else -> [b,c,a]
(the source's final return handles every rotation other than 0 and 1). -/
def Tiles.getPlacedValues (v : V3) (rotation : Nat) : V3 :=
  if rotation = 0 then v
  else if rotation = 1 then ⟨v.c, v.a, v.b⟩
  else ⟨v.b, v.c, v.a⟩

/-- tiles.js tileSum. -/
def Tiles.tileSum (v : V3) : Int := v.a + v.b + v.c

/-- tiles.js isTriple. -/
def Tiles.isTriple (v : V3) : Bool := v.a == v.b && v.b == v.c

/-- One entry of the adjacency tables (board.js): relative offset of the
neighbor and the two corner-index pairs that must match (the source's
my/their arrays always have length 2, so they are modelled as pairs). -/
structure NbrDef where
  dr : Int
  dc : Int
  my : Nat × Nat
  their : Nat × Nat
deriving DecidableEq, Repr

/-- board.js UP_NEIGHBORS. -/
def upNeighbors : List NbrDef :=
  [⟨0, -1, (0, 2), (2, 0)⟩, ⟨0, 1, (0, 1), (1, 0)⟩, ⟨1, 0, (2, 1), (1, 2)⟩]

/-- board.js DOWN_NEIGHBORS. -/
def downNeighbors : List NbrDef :=
  [⟨0, -1, (1, 0), (0, 1)⟩, ⟨0, 1, (2, 0), (0, 2)⟩, ⟨-1, 0, (1, 2), (2, 1)⟩]

/-- A placed tile stored in a board cell (board.js place). -/
structure PlacedTile where
  values : V3
  tileId : Nat
  playerId : Nat
deriving DecidableEq, Repr

/-- The board: association list from (row, col) to placed tile,
first-match lookup, modelling the JS Map keyed by "r,c" strings. -/
abbrev Board := List ((Int × Int) × PlacedTile)

/-- board.js isUp: ((r+c)%2+2)%2 === 0.  Lean's Int emod by 2 is already
non-negative, matching the JS double-mod normalization. -/
def Board.isUp (r c : Int) : Bool := (r + c) % 2 == 0

/-- board.js get (null modelled as none). -/
def Board.get (b : Board) (r c : Int) : Option PlacedTile :=
  (b.find? fun e => e.1 == (r, c)).map (·.2)

/-- board.js has. -/
def Board.has (b : Board) (r c : Int) : Bool := (Board.get b r c).isSome

/-- board.js place: Map.set, modelled as erase-then-cons (same lookup
results and same size as the JS Map). -/
def Board.place (b : Board) (r c : Int) (values : V3) (tileId playerId : Nat) : Board :=
  ((r, c), ⟨values, tileId, playerId⟩) :: b.filter fun e => !(e.1 == (r, c))

/-- board.js size. -/
def Board.size (b : Board) : Nat := b.length

/-- board.js neighborDefs. -/
def Board.neighborDefs (r c : Int) : List NbrDef :=
  if Board.isUp r c then upNeighbors else downNeighbors

/-- One instantiated neighbor of a cell (board.js neighbors entries). -/
structure NbrInst where
  row : Int
  col : Int
  my : Nat × Nat
  their : Nat × Nat
deriving DecidableEq, Repr

/-- board.js neighbors. -/
def Board.neighbors (r c : Int) : List NbrInst :=
  (Board.neighborDefs r c).map fun n => ⟨r + n.dr, c + n.dc, n.my, n.their⟩

/-- The inner matching loop of board.js isValid for one occupied neighbor:
values[my[i]] must equal tile.values[their[i]] for both index pairs. -/
def Board.pairsOk (v : V3) (n : NbrInst) (t : PlacedTile) : Bool :=
  v.idx n.my.1 == t.values.idx n.their.1 && v.idx n.my.2 == t.values.idx n.their.2

/-- The neighbor loop of board.js isValid: walks the neighbor list carrying
the adjacent flag; an occupied neighbor with a corner mismatch returns
false immediately; at the end the adjacent flag is returned. -/
def Board.validLoop (b : Board) (v : V3) : List NbrInst → Bool → Bool
  | [], adjacent => adjacent
  | n :: rest, adjacent =>
    match Board.get b n.row n.col with
    | none => Board.validLoop b v rest adjacent
    | some t => if Board.pairsOk v n t then Board.validLoop b v rest true else false

/-- board.js isValid. -/
def Board.isValid (b : Board) (r c : Int) (v : V3) : Bool :=
  if Board.has b r c then false
  else if Board.size b == 0 then true
  else Board.validLoop b v (Board.neighbors r c) false

/-- A legal placement record returned by board.js getValidPlacements. -/
structure Placement where
  row : Int
  col : Int
  rotation : Nat
  values : V3
deriving DecidableEq, Repr

/-- board.js getValidPlacements: on an empty board, the 3 rotations at the
origin; otherwise every (frontier cell, rotation) accepted by isValid.
The JS Set of candidate cells is modelled by insertion-order dedup. -/
def Board.getValidPlacements (b : Board) (tv : V3) : List Placement :=
  if Board.size b == 0 then
    (List.range 3).map fun rot => ⟨0, 0, rot, Tiles.getPlacedValues tv rot⟩
  else
    let candidates : List (Int × Int) :=
      b.foldl (fun acc e =>
        (Board.neighbors e.1.1 e.1.2).foldl (fun acc2 n =>
          if Board.has b n.row n.col then acc2
          else if (n.row, n.col) ∈ acc2 then acc2
          else acc2 ++ [(n.row, n.col)]) acc) []
    candidates.flatMap fun p =>
      (List.range 3).filterMap fun rot =>
        let v := Tiles.getPlacedValues tv rot
        if Board.isValid b p.1 p.2 v then some ⟨p.1, p.2, rot, v⟩ else none

/-- board.js vertexCoords: (vx, vy) lattice coordinates of a cell's
3 corners, in corner-index order. -/
def Board.vertexCoords (r c : Int) : List (Int × Int) :=
  if Board.isUp r c then [(c + 1, r), (c + 2, r + 1), (c, r + 1)]
  else [(c + 1, r + 1), (c, r), (c + 2, r)]

/-- board.js surroundingCells: the 6 (row, col) cells around a vertex. -/
def Board.surroundingCells (vx vy : Int) : List (Int × Int) :=
  [(vy, vx - 1), (vy - 1, vx - 2), (vy - 1, vx),
   (vy - 1, vx - 1), (vy, vx), (vy, vx - 2)]

/-- board.js isHexagonComplete. -/
def Board.isHexagonComplete (b : Board) (vx vy : Int) : Bool :=
  (Board.surroundingCells vx vy).all fun p => Board.has b p.1 p.2

/-- board.js countCompletedHexagons. -/
def Board.countCompletedHexagons (b : Board) (r c : Int) : Nat :=
  ((Board.vertexCoords r c).filter fun v => Board.isHexagonComplete b v.1 v.2).length

/-- board.js isBridge: exactly one occupied edge-neighbor and the vertex
opposite that edge is shared with some other occupied cell. -/
def Board.isBridge (b : Board) (r c : Int) : Bool :=
  let nbs := Board.neighbors r c
  let occ := nbs.map fun n => Board.has b n.row n.col
  if (occ.filter fun x => x).length != 1 then false
  else
    let connIdx := occ.findIdx fun x => x
    let oppMap : List Nat := if Board.isUp r c then [1, 2, 0] else [2, 1, 0]
    let oppVert := (Board.vertexCoords r c).getD (oppMap.getD connIdx 0) (0, 0)
    (Board.surroundingCells oppVert.1 oppVert.2).any fun cell =>
      !(cell.1 == r && cell.2 == c) && Board.has b cell.1 cell.2

/-- board.js calcScore: base corner sum; triple replaces it with 40 when
the shared value is 0 and base+10 otherwise; +40 bridge; +50/60/70 for
1/2/3-or-more completed hexagons.  Called on the board state after the
placement has been committed. -/
def Board.calcScore (b : Board) (r c : Int) (v : V3) : Int :=
  let base := Tiles.tileSum v
  let s1 := if Tiles.isTriple v then (if v.a == 0 then (40 : Int) else base + 10) else base
  let s2 := if Board.isBridge b r c then s1 + 40 else s1
  let hex := Board.countCompletedHexagons b r c
  if hex == 1 then s2 + 50
  else if hex == 2 then s2 + 60
  else if hex ≥ 3 then s2 + 70
  else s2

/-- Game phase (game.js): waiting | playing | finished. -/
inductive Phase
  | waiting
  | playing
  | finished
deriving DecidableEq, Repr

/-- A player record (game.js): {id, name, tiles, score}. -/
structure Player where
  id : String
  name : String
  tiles : List Tile
  score : Int
deriving DecidableEq, Repr

/-- game.js lastAction values ({type, player, row?, col?}). -/
inductive LastAction
  | placeA (player : Nat) (row col : Int)
  | drawA (player : Nat)
  | passA (player : Nat)
deriving DecidableEq, Repr

/-- The seven typed engine errors of §7 (the error strings of game.js). -/
inductive GErr
  | gameNotInProgress
  | notYourTurn
  | invalidTile
  | invalidPlacement
  | poolEmpty
  | mustDrawFirst
  | hasValidPlacement
deriving DecidableEq, Repr

/-- Result of placeTile: {success, error?, score?, gameOver?, winner?}. -/
structure PlaceResult where
  success : Bool
  error : Option GErr
  score : Option Int
  gameOver : Bool
  winner : Option Nat
deriving DecidableEq, Repr

/-- Result of drawTile: {success, error?, tile?, poolSize?}. -/
structure DrawResult where
  success : Bool
  error : Option GErr
  tile : Option Tile
  poolSize : Option Nat
deriving DecidableEq, Repr

/-- Result of passTurn: {success, error?, gameOver?, winner?}. -/
structure PassResult where
  success : Bool
  error : Option GErr
  gameOver : Bool
  winner : Option Nat
deriving DecidableEq, Repr

/-- Failure result constructors: {success: false, error}. -/
def errP (e : GErr) : PlaceResult := ⟨false, some e, none, false, none⟩

/-- drawTile failure result. -/
def errD (e : GErr) : DrawResult := ⟨false, some e, none, none⟩

/-- passTurn failure result. -/
def errPs (e : GErr) : PassResult := ⟨false, some e, false, none⟩

/-- The Game state (game.js constructor fields). -/
structure Game where
  board : Board
  players : List Player
  pool : List Tile
  currentPlayerIndex : Nat
  phase : Phase
  drawnThisTurn : Bool
  winner : Int
  lastAction : Option LastAction
deriving DecidableEq, Repr

/-- A freshly constructed Game (game.js constructor). -/
def Game.init : Game := ⟨[], [], [], 0, .waiting, false, -1, none⟩

/-- game.js addPlayer. -/
def Game.addPlayer (g : Game) (id name : String) : Game :=
  { g with players := g.players ++ [⟨id, name, [], 0⟩] }

/-- The starter-selection update condition of game.js findStarter:
(trip && !bestTriple) || (trip === bestTriple && s > bestVal), i.e.
strict lexicographic comparison of (isTriple, sum) keys. -/
def keyLt (x y : Bool × Int) : Bool :=
  (y.1 && !x.1) || (x.1 == y.1 && x.2 < y.2)

/-- Strict Int comparison used by game.js bestPlayer. -/
def iLt (x y : Int) : Bool := x < y

/-- The (isTriple, sum) key of a tile, used by findStarter. -/
def tileKey (t : Tile) : Bool × Int :=
  (Tiles.isTriple t.values, Tiles.tileSum t.values)

/-- Generic first-occurrence running-maximum fold: carries the current
best (index, key) and replaces it exactly when the next key is strictly
greater.  Both findStarter and bestPlayer in game.js are loops of this
shape. -/
def amax {K : Type} (lt : K → K → Bool) : List (Nat × K) → Nat × K → Nat × K
  | [], acc => acc
  | x :: rest, acc => if lt acc.2 x.2 then amax lt rest x else amax lt rest acc

/-- The (player index, tile key) pairs scanned by game.js findStarter,
in its exact iteration order (players in order, each hand in order). -/
def handPairs (players : List Player) : List (Nat × (Bool × Int)) :=
  players.enum.flatMap fun ip => ip.2.tiles.map fun t => (ip.1, tileKey t)

/-- game.js findStarter: best=0, bestVal=-1, bestTriple=false, then the
nested loop over players and hand tiles with the keyLt update rule. -/
def Game.findStarter (players : List Player) : Nat :=
  (amax keyLt (handPairs players) (0, (false, -1))).1

/-- The hand-dealing loop of game.js start: each player in order receives
splice(0, n) from the pool and a score reset to 0. -/
def dealGo (n : Nat) : List Player → List Tile → List Player × List Tile
  | [], pool => ([], pool)
  | p :: ps, pool =>
    let res := dealGo n ps (pool.drop n)
    ({ p with tiles := pool.take n, score := 0 } :: res.1, res.2)

/-- game.js start.  The shuffled pool (Tiles.shuffleArray of generateAll)
is passed in as the deck parameter, making the randomness explicit. -/
def Game.start (deck : List Tile) (g : Game) : Game :=
  let perPlayer := if g.players.length ≤ 2 then 9 else 7
  let dealt := dealGo perPlayer g.players deck
  { g with
    pool := dealt.2
    players := dealt.1
    currentPlayerIndex := Game.findStarter dealt.1
    phase := .playing
    drawnThisTurn := false
    winner := -1 }

/-- game.js nextTurn: advance cyclically, reset drawnThisTurn.  Only
called with a non-empty player list (the acting player exists). -/
def Game.nextTurn (g : Game) : Game :=
  { g with currentPlayerIndex := (g.currentPlayerIndex + 1) % g.players.length
           drawnThisTurn := false }

/-- The end-of-game hand bonus of game.js placeTile: the sum of every
tile value in every other player's hand (other !== player is modelled
by index inequality; each player occurs once in the array). -/
def othersSum (players : List Player) (idx : Nat) : Int :=
  (((players.enum.filter fun ip => ip.1 ≠ idx).flatMap fun ip => ip.2.tiles).map
    fun t => Tiles.tileSum t.values).sum

/-- game.js placeTile.

Modelled from the spec: the commit-time scoring call.  The repository
ships the bonus-complete Board.calcScore(r, c, values) (board.js) but the
game.js present in the sources is the earlier simplified-variant file
whose scoring call passes only the oriented values; following spec §4.2
and §9 (the specification follows the fuller, bonus-complete variant),
the committed placement is scored with Board.calcScore at the placed cell
on the board state after the placement.  Everything else follows game.js
line by line.  A none result models the JS TypeError fault of indexing a
missing player; every engine-detected failure is a typed some result. -/
def Game.placeTile (g : Game) (playerIdx : Nat) (tileIdx : Int)
    (row col : Int) (rotation : Nat) : Option (Game × PlaceResult) :=
  if g.phase ≠ .playing then some (g, errP .gameNotInProgress)
  else if playerIdx ≠ g.currentPlayerIndex then some (g, errP .notYourTurn)
  else
    match g.players.get? playerIdx with
    | none => none
    | some player =>
      if tileIdx < 0 ∨ (player.tiles.length : Int) ≤ tileIdx then
        some (g, errP .invalidTile)
      else
        match player.tiles.get? tileIdx.toNat with
        | none => none
        | some tile =>
          let values := Tiles.getPlacedValues tile.values rotation
          if ¬ Board.isValid g.board row col values then
            some (g, errP .invalidPlacement)
          else
            let board' := Board.place g.board row col values tile.id playerIdx
            let score := Board.calcScore board' row col values
            let tiles' := player.tiles.eraseIdx tileIdx.toNat
            if tiles'.length = 0 then
              let final := player.score + score + 25 + othersSum g.players playerIdx
              let g' := { g with
                board := board'
                players := g.players.set playerIdx
                  { player with tiles := tiles', score := final }
                lastAction := some (.placeA playerIdx row col)
                phase := .finished
                winner := (playerIdx : Int) }
              some (g', ⟨true, none, some score, true, some playerIdx⟩)
            else
              let g' := Game.nextTurn { g with
                board := board'
                players := g.players.set playerIdx
                  { player with tiles := tiles', score := player.score + score }
                lastAction := some (.placeA playerIdx row col) }
              some (g', ⟨true, none, some score, false, none⟩)

/-- game.js drawTile: pop the last pool tile into the hand, score -5
floored at 0, set drawnThisTurn; the turn does not advance. -/
def Game.drawTile (g : Game) (playerIdx : Nat) : Option (Game × DrawResult) :=
  if g.phase ≠ .playing then some (g, errD .gameNotInProgress)
  else if playerIdx ≠ g.currentPlayerIndex then some (g, errD .notYourTurn)
  else if g.pool.length = 0 then some (g, errD .poolEmpty)
  else
    match g.players.get? playerIdx with
    | none => none
    | some player =>
      match g.pool.getLast? with
      | none => none
      | some tile =>
        let pool' := g.pool.dropLast
        let player' := { player with
          tiles := player.tiles ++ [tile]
          score := max 0 (player.score - 5) }
        let g' := { g with
          pool := pool'
          players := g.players.set playerIdx player'
          drawnThisTurn := true
          lastAction := some (.drawA playerIdx) }
        some (g', ⟨true, none, some tile, some pool'.length⟩)

/-- game.js players[playerIdx] for an arbitrary integer index: undefined
(none) when out of range. -/
def Game.getPlayer (g : Game) (i : Int) : Option Player :=
  if 0 ≤ i then g.players.get? i.toNat else none

/-- game.js canPlay: false for a missing player, otherwise whether any
hand tile has at least one legal placement. -/
def Game.canPlay (g : Game) (i : Int) : Bool :=
  match Game.getPlayer g i with
  | none => false
  | some p => p.tiles.any fun t =>
      decide (0 < (Board.getValidPlacements g.board t.values).length)

/-- game.js isStalemate: pool empty and no player holds a playable tile. -/
def Game.isStalemate (g : Game) : Bool :=
  if 0 < g.pool.length then false
  else g.players.all fun p => p.tiles.all fun t =>
    (Board.getValidPlacements g.board t.values).length == 0

/-- game.js bestPlayer: best=0, then i=1.. replaces best exactly when
players[i].score > players[best].score (first occurrence wins ties). -/
def Game.bestPlayer (players : List Player) : Nat :=
  match players with
  | [] => 0
  | p0 :: rest =>
    (amax iLt (List.enumFrom 1 (rest.map fun p => p.score)) (0, p0.score)).1

/-- game.js passTurn: guarded by MustDrawFirst and HasValidPlacement,
score -10 floored at 0, turn advances, then the stalemate check ends the
game with the best player as winner. -/
def Game.passTurn (g : Game) (playerIdx : Nat) : Option (Game × PassResult) :=
  if g.phase ≠ .playing then some (g, errPs .gameNotInProgress)
  else if playerIdx ≠ g.currentPlayerIndex then some (g, errPs .notYourTurn)
  else if ¬ g.drawnThisTurn ∧ 0 < g.pool.length then some (g, errPs .mustDrawFirst)
  else if Game.canPlay g (playerIdx : Int) then some (g, errPs .hasValidPlacement)
  else
    match g.players.get? playerIdx with
    | none => none
    | some player =>
      let g1 := Game.nextTurn { g with
        players := g.players.set playerIdx
          { player with score := max 0 (player.score - 10) }
        lastAction := some (.passA playerIdx) }
      if Game.isStalemate g1 then
        let w := Game.bestPlayer g1.players
        some ({ g1 with phase := .finished, winner := (w : Int) },
              ⟨true, none, true, some w⟩)
      else
        some (g1, ⟨true, none, false, none⟩)

/-- Public per-player record in a snapshot (game.js serializeForPlayer). -/
structure PlayerPublic where
  id : String
  name : String
  tileCount : Nat
  score : Int
deriving DecidableEq, Repr

/-- The personalized snapshot returned by game.js serializeForPlayer. -/
structure Snapshot where
  board : Board
  players : List PlayerPublic
  currentPlayerIndex : Nat
  phase : Phase
  poolSize : Nat
  winner : Int
  drawnThisTurn : Bool
  lastAction : Option LastAction
  yourIndex : Int
  yourTiles : List Tile
deriving DecidableEq, Repr

/-- game.js serializeForPlayer: full public state plus the requesting
player's own hand (empty list when the index is out of range). -/
def Game.serializeForPlayer (g : Game) (playerIdx : Int) : Snapshot :=
  { board := g.board
    players := g.players.map fun p => ⟨p.id, p.name, p.tiles.length, p.score⟩
    currentPlayerIndex := g.currentPlayerIndex
    phase := g.phase
    poolSize := g.pool.length
    winner := g.winner
    drawnThisTurn := g.drawnThisTurn
    lastAction := g.lastAction
    yourIndex := playerIdx
    yourTiles := match Game.getPlayer g playerIdx with
                 | some p => p.tiles
                 | none => [] }

/-- One cell satisfies the edge-matching rule towards all its occupied
neighbors: for each adjacency-table entry with an occupied neighbor, both
corner-index pairs hold equal values. -/
def Board.cellOk (b : Board) (r c : Int) (v : V3) : Bool :=
  (Board.neighborDefs r c).all fun n =>
    match Board.get b (r + n.dr) (c + n.dc) with
    | none => true
    | some t => Board.pairsOk v ⟨r + n.dr, c + n.dc, n.my, n.their⟩ t

/-- The edge-matching invariant of spec §3: every occupied cell matches
every occupied edge-neighbor on all corner-index pairs named by the
adjacency tables. -/
def edgeInv (b : Board) : Bool :=
  b.all fun e =>
    match Board.get b e.1.1 e.1.2 with
    | none => true
    | some pt => Board.cellOk b e.1.1 e.1.2 pt.values

/-- One engine action step: some placeTile, drawTile, or passTurn call
returned normally and produced the new state. -/
def Step (g g' : Game) : Prop :=
  (∃ p ti row col rot res, Game.placeTile g p ti row col rot = some (g', res)) ∨
  (∃ p res, Game.drawTile g p = some (g', res)) ∨
  (∃ p res, Game.passTurn g p = some (g', res))

/-- States reachable by any sequence of engine actions. -/
def Reachable : Game → Game → Prop := Relation.ReflTransGen Step

/-- Concrete tiles and states used to instantiate the theorems below. -/
def tTrip : Tile := ⟨0, ⟨0, 0, 0⟩⟩

/-- A non-triple (1,2,3) tile. -/
def t123 : Tile := ⟨13, ⟨1, 2, 3⟩⟩

/-- A non-triple (0,1,4) tile. -/
def t014 : Tile := ⟨5, ⟨0, 1, 4⟩⟩

/-- A playing game whose acting player holds a single tile. -/
def gLast : Game := ⟨[], [⟨"a", "A", [tTrip], 0⟩], [], 0, .playing, false, -1, none⟩

/-- A playing game whose acting player holds two tiles. -/
def gTwo : Game := ⟨[], [⟨"a", "A", [tTrip, t123], 0⟩], [], 0, .playing, false, -1, none⟩

/-- A one-cell board holding (1,2,3) at the origin. -/
def bOne : Board := [((0, 0), ⟨⟨1, 2, 3⟩, 13, 0⟩)]

/-- A playing game over bOne with a non-empty pool, used to take one
draw step. -/
def gDraw : Game := ⟨bOne, [⟨"a", "A", [], 10⟩], [t123], 0, .playing, false, -1, none⟩

/-- The state after gDraw's player draws the last pool tile. -/
def gDrawn : Game :=
  ⟨bOne, [⟨"a", "A", [t123], 5⟩], [], 0, .playing, true, -1, some (.drawA 0)⟩

/-- A one-player waiting game, as built by addPlayer before start. -/
def gReady : Game := Game.init.addPlayer "a" "A"

/-- A nine-player waiting game: more hands than the 56-tile catalog can
fill at 7 tiles each. -/
def gNine : Game :=
  ⟨[], [⟨"p0", "P", [], 0⟩, ⟨"p1", "P", [], 0⟩, ⟨"p2", "P", [], 0⟩,
        ⟨"p3", "P", [], 0⟩, ⟨"p4", "P", [], 0⟩, ⟨"p5", "P", [], 0⟩,
        ⟨"p6", "P", [], 0⟩, ⟨"p7", "P", [], 0⟩, ⟨"p8", "P", [], 0⟩],
   [], 0, .waiting, false, -1, none⟩

/-- A playing game with an empty pool and a tileless acting player,
one pass away from stalemate. -/
def gPass : Game := ⟨[], [⟨"a", "A", [], 3⟩], [], 0, .playing, false, -1, none⟩

/-- Two-player playing game (player 0 to act) holding distinct hands. -/
def gSnapA : Game :=
  ⟨bOne, [⟨"a", "A", [tTrip], 4⟩, ⟨"b", "B", [t123], 7⟩], [t014], 0,
   .playing, false, -1, none⟩

/-- gSnapA with player 1's hand contents changed but the same hand size. -/
def gSnapB : Game :=
  ⟨bOne, [⟨"a", "A", [tTrip], 4⟩, ⟨"b", "B", [t014], 7⟩], [t014], 0,
   .playing, false, -1, none⟩

/-! Helper lemmas -/

/-- Rotations other than 0 and 1 all take the source's final return. -/
theorem getPlacedValues_of_ge_two (v : V3) (rot : Nat) (h : 2 ≤ rot) :
    Tiles.getPlacedValues v rot = Tiles.getPlacedValues v 2 := by
  unfold Tiles.getPlacedValues
  rw [if_neg (by omega), if_neg (by omega), if_neg (by omega), if_neg (by omega)]

/-- Claim C10: canPlay returns false for every player index outside the
players array (negative or at least the player count); it is a total
function of the integer index. -/
theorem canPlay_false_out_of_range (g : Game) (i : Int)
    (h : i < 0 ∨ (g.players.length : Int) ≤ i) :
    Game.canPlay g i = false := by
  unfold Game.canPlay Game.getPlayer
  rcases h with h | h
  · rw [if_neg (by omega)]
  · by_cases h0 : 0 ≤ i
    · rw [if_pos h0, List.get?_eq_none.mpr (by omega)]
    · rw [if_neg h0]

/-- Witness for C10 at the fresh game and index -1. -/
theorem canPlay_false_out_of_range_witness :
    ((-1 : Int) < 0 ∨ ((Game.init.players.length : Int) ≤ -1)) ∧
      Game.canPlay Game.init (-1) = false :=
  ⟨Or.inl (by decide), canPlay_false_out_of_range Game.init (-1) (Or.inl (by decide))⟩

/-- Counterexample for C8: placeTile with rotation 7 (outside {0,1,2})
does not fail with a typed error; it succeeds, treating the rotation as
rotation 2. -/
theorem placeTile_rotation_seven_succeeds :
    (Game.placeTile gTwo 0 0 0 0 7).map (fun gr => gr.2.success) = some true ∧
    (Game.placeTile gTwo 0 0 0 0 7).map (fun gr => gr.2.error) = some none := by
  constructor <;> decide

/-- Claim C8 (amended): placeTile never propagates a lower-level fault on
an out-of-range rotation, but it does not normalize it to a typed error
either: every rotation outside {0,1,2} is treated exactly as rotation 2
(the engine behaves identically to the rotation-2 call). -/
theorem placeTile_rotation_ge_three_as_two (g : Game) (p : Nat) (ti : Int)
    (row col : Int) (rot : Nat) (h : 3 ≤ rot) :
    Game.placeTile g p ti row col rot = Game.placeTile g p ti row col 2 := by
  have hrw : ∀ v, Tiles.getPlacedValues v rot = Tiles.getPlacedValues v 2 :=
    fun v => getPlacedValues_of_ge_two v rot (by omega)
  unfold Game.placeTile
  simp only [hrw]

/-- Witness for C8's amended theorem at rotation 7. -/
theorem placeTile_rotation_ge_three_as_two_witness :
    3 ≤ 7 ∧ Game.placeTile gTwo 0 0 0 0 7 = Game.placeTile gTwo 0 0 0 0 2 :=
  ⟨by omega, placeTile_rotation_ge_three_as_two gTwo 0 0 0 0 7 (by omega)⟩

/-- Claim C4: calcScore is 6 for a non-triple (1,2,3) placement, a flat
40 for an all-zero triple, and 25 for an all-five triple (base 15 + 10):
with no bridge and no completed hexagon, an all-equal triple replaces the
base sum by 40 when the shared value is 0 and adds 10 otherwise. -/
theorem calcScore_triple_and_base_rules :
    Board.calcScore (Board.place [] 0 0 ⟨1, 2, 3⟩ 13 0) 0 0 ⟨1, 2, 3⟩ = 6 ∧
    Board.calcScore (Board.place [] 0 0 ⟨0, 0, 0⟩ 0 0) 0 0 ⟨0, 0, 0⟩ = 40 ∧
    Board.calcScore (Board.place [] 0 0 ⟨5, 5, 5⟩ 55 0) 0 0 ⟨5, 5, 5⟩ = 25 ∧
    ∀ (b : Board) (r c : Int) (v : V3),
      Tiles.isTriple v = true →
      Board.isBridge b r c = false →
      Board.countCompletedHexagons b r c = 0 →
      Board.calcScore b r c v =
        if v.a = 0 then 40 else Tiles.tileSum v + 10 := by
  refine ⟨by decide, by decide, by decide, ?_⟩
  intro b r c v htrip hbr hhex
  unfold Board.calcScore
  rw [htrip, hbr, hhex]
  by_cases hz : v.a = 0 <;> simp [hz]

/-- Witness for C4's general triple rule at a concrete (2,2,2) triple on
its own one-tile board. -/
theorem calcScore_triple_and_base_rules_witness :
    Board.calcScore (Board.place [] 0 0 ⟨2, 2, 2⟩ 21 0) 0 0 ⟨2, 2, 2⟩ = 16 := by
  have h := calcScore_triple_and_base_rules.2.2.2
    (Board.place [] 0 0 ⟨2, 2, 2⟩ 21 0) 0 0 ⟨2, 2, 2⟩
    (by decide) (by decide) (by decide)
  simpa using h

/-- The neighbor loop of isValid returns true exactly when the adjacent
flag would end true (seeded or some occupied neighbor seen) and every
occupied neighbor matches on both corner-index pairs. -/
theorem validLoop_eq_true_iff (b : Board) (v : V3) (l : List NbrInst) (adj : Bool) :
    Board.validLoop b v l adj = true ↔
      ((adj = true ∨ ∃ n ∈ l, Board.has b n.row n.col = true) ∧
       ∀ n ∈ l, Option.all (fun t => Board.pairsOk v n t) (Board.get b n.row n.col) = true) := by
  induction l generalizing adj with
  | nil => simp [Board.validLoop]
  | cons n rest ih =>
    simp only [Board.validLoop]
    cases hg : Board.get b n.row n.col with
    | none =>
      rw [ih]
      simp [Board.has, hg, List.forall_mem_cons]
    | some t =>
      by_cases hok : Board.pairsOk v n t
      · dsimp only
        rw [if_pos hok, ih]
        simp [Board.has, hg, List.forall_mem_cons, hok]
      · dsimp only
        rw [if_neg hok]
        simp [Board.has, hg, List.forall_mem_cons, hok]

/-- Claim C2: isValid is false on an occupied cell, true on an empty
board, and otherwise true exactly when at least one edge-neighbor is
occupied and every occupied edge-neighbor agrees on both corner-index
pairs of the adjacency table; in particular a placement with zero
occupied neighbors is rejected on a non-empty board. -/
theorem isValid_characterization (b : Board) (r c : Int) (v : V3) :
    Board.isValid b r c v = true ↔
      (Board.has b r c = false ∧
        (Board.size b = 0 ∨
          ((∃ n ∈ Board.neighbors r c, Board.has b n.row n.col = true) ∧
           ∀ n ∈ Board.neighbors r c,
             Option.all (fun t => Board.pairsOk v n t) (Board.get b n.row n.col) = true))) := by
  unfold Board.isValid
  by_cases h1 : Board.has b r c
  · simp [h1]
  · by_cases h2 : Board.size b = 0
    · simp [h1, h2]
    · have h2b : (Board.size b == 0) = false := by simpa using h2
      simp only [h1, h2b, if_false, Bool.false_eq_true, eq_self_iff_true,
        if_true, if_neg (by simp : ¬ false = true)]
      rw [validLoop_eq_true_iff]
      simp [h1, h2]

/-- Witness for C2: a matching placement next to the one-tile board bOne
is accepted, derived through the characterization. -/
theorem isValid_characterization_witness :
    Board.isValid bOne 0 1 ⟨2, 1, 5⟩ = true :=
  (isValid_characterization bOne 0 1 ⟨2, 1, 5⟩).mpr (by decide)

/-- Every placeTile call that returns an unsuccessful result leaves the
game untouched and carries a typed error. -/
theorem placeTile_fail_frame (g : Game) (p : Nat) (ti : Int) (row col : Int)
    (rot : Nat) (g' : Game) (res : PlaceResult)
    (h : Game.placeTile g p ti row col rot = some (g', res))
    (hs : res.success = false) : g' = g ∧ res.error.isSome = true := by
  unfold Game.placeTile at h
  dsimp only at h
  repeat' split at h
  all_goals first
    | exact Option.noConfusion h
    | (injection h with hh
       obtain ⟨rfl, rfl⟩ := Prod.mk.inj hh
       first
         | exact ⟨rfl, rfl⟩
         | simp at hs)

/-- Every drawTile call that returns an unsuccessful result leaves the
game untouched and carries a typed error. -/
theorem drawTile_fail_frame (g : Game) (p : Nat) (g' : Game) (res : DrawResult)
    (h : Game.drawTile g p = some (g', res))
    (hs : res.success = false) : g' = g ∧ res.error.isSome = true := by
  unfold Game.drawTile at h
  dsimp only at h
  repeat' split at h
  all_goals first
    | exact Option.noConfusion h
    | (injection h with hh
       obtain ⟨rfl, rfl⟩ := Prod.mk.inj hh
       first
         | exact ⟨rfl, rfl⟩
         | simp at hs)

/-- Every passTurn call that returns an unsuccessful result leaves the
game untouched and carries a typed error. -/
theorem passTurn_fail_frame (g : Game) (p : Nat) (g' : Game) (res : PassResult)
    (h : Game.passTurn g p = some (g', res))
    (hs : res.success = false) : g' = g ∧ res.error.isSome = true := by
  unfold Game.passTurn at h
  dsimp only at h
  repeat' split at h
  all_goals first
    | exact Option.noConfusion h
    | (injection h with hh
       obtain ⟨rfl, rfl⟩ := Prod.mk.inj hh
       first
         | exact ⟨rfl, rfl⟩
         | simp at hs)

/-- Claim C7: every engine-detected failure of placeTile, drawTile, or
passTurn is returned as a typed result with success=false (rather than a
thrown fault) and leaves the entire Game state exactly as it was. -/
theorem typed_failures_leave_state_unchanged :
    (∀ (g : Game) (p : Nat) (ti : Int) (row col : Int) (rot : Nat)
        (g' : Game) (res : PlaceResult),
        Game.placeTile g p ti row col rot = some (g', res) →
        res.success = false → g' = g ∧ res.error.isSome = true) ∧
    (∀ (g : Game) (p : Nat) (g' : Game) (res : DrawResult),
        Game.drawTile g p = some (g', res) →
        res.success = false → g' = g ∧ res.error.isSome = true) ∧
    (∀ (g : Game) (p : Nat) (g' : Game) (res : PassResult),
        Game.passTurn g p = some (g', res) →
        res.success = false → g' = g ∧ res.error.isSome = true) :=
  ⟨placeTile_fail_frame, drawTile_fail_frame, passTurn_fail_frame⟩

/-- Witness for C7: placing in a waiting-phase game fails with the typed
GameNotInProgress result and the state is unchanged. -/
theorem typed_failures_leave_state_unchanged_witness :
    Game.init = Game.init ∧ (errP .gameNotInProgress).error.isSome = true :=
  typed_failures_leave_state_unchanged.1 Game.init 0 0 0 0 0 Game.init
    (errP .gameNotInProgress) (by decide) (by decide)

/-- Claim C1 (amended): in a playing game, when the acting player equals
currentPlayerIndex, the hand index is in range, the oriented values pass
Board.isValid, and the placement does not empty the hand, placeTile
succeeds, commits the tile to the board, removes it from the hand, and
increases exactly the acting player's score by Board.calcScore evaluated
at the placed cell with the oriented values on the board state after the
placement.  (When the placement empties the hand the score additionally
receives the +25 and opponents' hand-sum endgame bonus; see the
counterexample.) -/
theorem placeTile_commit (g : Game) (player : Player) (ti : Nat) (tile : Tile)
    (row col : Int) (rot : Nat)
    (hphase : g.phase = .playing)
    (hp : g.players.get? g.currentPlayerIndex = some player)
    (hget : player.tiles.get? ti = some tile)
    (hlen : 2 ≤ player.tiles.length)
    (hvalid : Board.isValid g.board row col (Tiles.getPlacedValues tile.values rot) = true) :
    ∃ (g' : Game) (res : PlaceResult),
      Game.placeTile g g.currentPlayerIndex (ti : Int) row col rot = some (g', res) ∧
      res.success = true ∧
      res.error = none ∧
      g'.board = Board.place g.board row col (Tiles.getPlacedValues tile.values rot)
        tile.id g.currentPlayerIndex ∧
      res.score = some (Board.calcScore g'.board row col
        (Tiles.getPlacedValues tile.values rot)) ∧
      g'.players.get? g.currentPlayerIndex = some
        { player with
            tiles := player.tiles.eraseIdx ti
            score := player.score + Board.calcScore g'.board row col
              (Tiles.getPlacedValues tile.values rot) } ∧
      (∀ j, j ≠ g.currentPlayerIndex → g'.players.get? j = g.players.get? j) ∧
      g'.phase = .playing ∧
      g'.currentPlayerIndex = (g.currentPlayerIndex + 1) % g.players.length := by
  have hti : ti < player.tiles.length := by
    by_contra hc
    rw [List.get?_eq_none.mpr (by omega)] at hget
    cases hget
  have hcur : g.currentPlayerIndex < g.players.length := by
    by_contra hc
    rw [List.get?_eq_none.mpr (by omega)] at hp
    cases hp
  have hc1 : ¬((ti : Int) < 0 ∨ (player.tiles.length : Int) ≤ (ti : Int)) := by
    omega
  have hel : (player.tiles.eraseIdx ti).length = player.tiles.length - 1 :=
    List.length_eraseIdx_of_lt hti
  have hc2 : ¬((player.tiles.eraseIdx ti).length = 0) := by
    rw [hel]; omega
  simp only [Game.placeTile, hphase, ne_eq, not_true_eq_false, if_false, hp,
    Int.toNat_natCast, hget, hc1, hvalid, hc2, ite_false]
  refine ⟨_, _, rfl, rfl, rfl, ?_, ?_, ?_, ?_, ?_, ?_⟩
  · simp [Game.nextTurn]
  · simp [Game.nextTurn]
  · simp only [Game.nextTurn]
    exact List.get?_set_eq_of_lt _ hcur
  · intro j hj
    simp only [Game.nextTurn]
    exact List.get?_set_ne _ _ (fun hne => hj hne.symm)
  · simp [Game.nextTurn]
  · simp [Game.nextTurn]

/-- Witness for C1's amended theorem: the two-tile player places the
(0,0,0) triple at the origin of the empty board. -/
theorem placeTile_commit_witness :
    ∃ (g' : Game) (res : PlaceResult),
      Game.placeTile gTwo gTwo.currentPlayerIndex ((0 : Nat) : Int) 0 0 0 = some (g', res) ∧
      res.success = true ∧
      res.error = none ∧
      g'.board = Board.place gTwo.board 0 0 (Tiles.getPlacedValues tTrip.values 0)
        tTrip.id gTwo.currentPlayerIndex ∧
      res.score = some (Board.calcScore g'.board 0 0 (Tiles.getPlacedValues tTrip.values 0)) ∧
      g'.players.get? gTwo.currentPlayerIndex = some
        { (⟨"a", "A", [tTrip, t123], 0⟩ : Player) with
            tiles := ([tTrip, t123] : List Tile).eraseIdx 0
            score := (0 : Int) + Board.calcScore g'.board 0 0
              (Tiles.getPlacedValues tTrip.values 0) } ∧
      (∀ j, j ≠ gTwo.currentPlayerIndex → g'.players.get? j = gTwo.players.get? j) ∧
      g'.phase = .playing ∧
      g'.currentPlayerIndex = (gTwo.currentPlayerIndex + 1) % gTwo.players.length :=
  placeTile_commit gTwo ⟨"a", "A", [tTrip, t123], 0⟩ 0 tTrip 0 0 0
    (by decide) (by decide) (by decide) (by decide) (by decide)

/-- Counterexample for C1 as frozen: when the placement empties the hand,
the acting player's score increases by calcScore plus the +25 endgame
bonus (65 from 0 here, while calcScore is 40), not by calcScore alone. -/
theorem placeTile_last_tile_extra_bonus :
    (Game.placeTile gLast 0 0 0 0 0).map
        (fun gr => (gr.2.success, gr.2.score, (gr.1.players.get? 0).map (·.score)))
      = some (true, some (40 : Int), some (65 : Int)) ∧ (65 : Int) ≠ 0 + 40 := by
  constructor <;> decide

/-- Players agreeing on id, name, score, and hand size produce the same
public projection list. -/
theorem forall2_public_map (l1 l2 : List Player)
    (h : List.Forall₂ (fun a b : Player =>
        a.id = b.id ∧ a.name = b.name ∧ a.score = b.score ∧
          a.tiles.length = b.tiles.length) l1 l2) :
    l1.map (fun q => (⟨q.id, q.name, q.tiles.length, q.score⟩ : PlayerPublic)) =
    l2.map (fun q => (⟨q.id, q.name, q.tiles.length, q.score⟩ : PlayerPublic)) := by
  induction h with
  | nil => rfl
  | cons hab hrest ih =>
    simp only [List.map_cons, ih, List.cons.injEq, and_true]
    simp [hab.1, hab.2.1, hab.2.2.1, hab.2.2.2]

/-- Claim C9: serializeForPlayer exposes the full board, every player's
id/name/score/hand size, the turn/phase/pool-size/winner/last-action
fields, and the full tile list only of the requesting player; two states
that agree on all public data and on the requesting player's hand (other
hands may differ arbitrarily as long as their sizes agree) produce
identical snapshots, so other players' hand contents never appear. -/
theorem serializeForPlayer_public_only (g1 g2 : Game) (p : Int)
    (hb : g1.board = g2.board)
    (hpool : g1.pool.length = g2.pool.length)
    (hcur : g1.currentPlayerIndex = g2.currentPlayerIndex)
    (hph : g1.phase = g2.phase)
    (hw : g1.winner = g2.winner)
    (hd : g1.drawnThisTurn = g2.drawnThisTurn)
    (hla : g1.lastAction = g2.lastAction)
    (hpl : List.Forall₂ (fun a b : Player =>
        a.id = b.id ∧ a.name = b.name ∧ a.score = b.score ∧
          a.tiles.length = b.tiles.length) g1.players g2.players)
    (hself : (Game.getPlayer g1 p).map Player.tiles
      = (Game.getPlayer g2 p).map Player.tiles) :
    Game.serializeForPlayer g1 p = Game.serializeForPlayer g2 p ∧
    (Game.serializeForPlayer g1 p).board = g1.board ∧
    (Game.serializeForPlayer g1 p).players =
      g1.players.map (fun q => ⟨q.id, q.name, q.tiles.length, q.score⟩) ∧
    (Game.serializeForPlayer g1 p).poolSize = g1.pool.length ∧
    (Game.serializeForPlayer g1 p).winner = g1.winner ∧
    (Game.serializeForPlayer g1 p).yourIndex = p ∧
    (Game.serializeForPlayer g1 p).yourTiles =
      ((Game.getPlayer g1 p).map Player.tiles).getD [] := by
  refine ⟨?_, rfl, rfl, rfl, rfl, rfl, ?_⟩
  · unfold Game.serializeForPlayer
    have hyt : (match Game.getPlayer g1 p with | some q => q.tiles | none => ([] : List Tile)) =
        (match Game.getPlayer g2 p with | some q => q.tiles | none => ([] : List Tile)) := by
      cases h1 : Game.getPlayer g1 p <;> cases h2 : Game.getPlayer g2 p <;>
        rw [h1, h2] at hself <;> simp_all
    rw [hb, hcur, hph, hpool, hw, hd, hla, forall2_public_map _ _ hpl, hyt]
  · cases h1 : Game.getPlayer g1 p <;> simp [Game.serializeForPlayer, h1]

/-- Witness for C9: changing only the non-requesting player's hand
contents (same size) leaves player 0's snapshot unchanged. -/
theorem serializeForPlayer_public_only_witness :
    Game.serializeForPlayer gSnapA 0 = Game.serializeForPlayer gSnapB 0 :=
  (serializeForPlayer_public_only gSnapA gSnapB 0 rfl rfl rfl rfl rfl rfl rfl
    (List.Forall₂.cons ⟨rfl, rfl, rfl, rfl⟩
      (List.Forall₂.cons ⟨rfl, rfl, rfl, rfl⟩ List.Forall₂.nil)) rfl).1

/-- The running-maximum fold either keeps its seed (when nothing beats
it) or returns the first list entry whose key strictly beats the seed
and everything before it, and is beaten by nothing (a first-occurrence
maximum), for any strict order satisfying irreflexivity, transitivity,
and co-transitivity. -/
theorem amax_characterization {K : Type} (lt : K → K → Bool)
    (hirr : ∀ k, lt k k = false)
    (htr : ∀ a b c, lt a b = true → lt b c = true → lt a c = true)
    (hco : ∀ a b c, lt a b = false → lt a c = true → lt b c = true) :
    ∀ (L : List (Nat × K)) (acc : Nat × K),
      (amax lt L acc = acc ∧ ∀ x ∈ L, lt acc.2 x.2 = false) ∨
      (∃ L1 e L2, L = L1 ++ e :: L2 ∧ amax lt L acc = e ∧ lt acc.2 e.2 = true ∧
        (∀ x ∈ L1, lt x.2 e.2 = true) ∧ (∀ x ∈ L, lt e.2 x.2 = false)) := by
  intro L
  induction L with
  | nil => intro acc; exact Or.inl ⟨rfl, by simp⟩
  | cons x rest ih =>
    intro acc
    by_cases hx : lt acc.2 x.2 = true
    · have hstep : amax lt (x :: rest) acc = amax lt rest x := by simp [amax, hx]
      rcases ih x with ⟨heq, hall⟩ | ⟨L1, e, L2, hsplit, heq, hlt, hpre, hmax⟩
      · refine Or.inr ⟨[], x, rest, by simp, by rw [hstep, heq], hx, by simp, ?_⟩
        intro y hy
        rcases List.mem_cons.mp hy with rfl | hy2
        · exact hirr _
        · exact hall y hy2
      · refine Or.inr ⟨x :: L1, e, L2, by simp [hsplit], by rw [hstep, heq],
          htr _ _ _ hx hlt, ?_, ?_⟩
        · intro y hy
          rcases List.mem_cons.mp hy with rfl | hy2
          · exact hlt
          · exact hpre y hy2
        · intro y hy
          rcases List.mem_cons.mp hy with rfl | hy2
          · by_contra hcon
            have h1 : lt e.2 y.2 = true := by
              revert hcon; cases lt e.2 y.2 <;> simp
            have h2 := htr _ _ _ hlt h1
            rw [hirr] at h2
            cases h2
          · exact hmax y hy2
    · have hx' : lt acc.2 x.2 = false := by
        revert hx; cases lt acc.2 x.2 <;> simp
      have hstep : amax lt (x :: rest) acc = amax lt rest acc := by simp [amax, hx']
      rcases ih acc with ⟨heq, hall⟩ | ⟨L1, e, L2, hsplit, heq, hlt, hpre, hmax⟩
      · refine Or.inl ⟨by rw [hstep, heq], ?_⟩
        intro y hy
        rcases List.mem_cons.mp hy with rfl | hy2
        · exact hx'
        · exact hall y hy2
      · refine Or.inr ⟨x :: L1, e, L2, by simp [hsplit], by rw [hstep, heq], hlt, ?_, ?_⟩
        · intro y hy
          rcases List.mem_cons.mp hy with rfl | hy2
          · exact hco _ _ _ hx' hlt
          · exact hpre y hy2
        · intro y hy
          rcases List.mem_cons.mp hy with rfl | hy2
          · have h1 : lt y.2 e.2 = true := hco _ _ _ hx' hlt
            by_contra hcon
            have h2 : lt e.2 y.2 = true := by
              revert hcon; cases lt e.2 y.2 <;> simp
            have h3 := htr _ _ _ h1 h2
            rw [hirr] at h3
            cases h3
          · exact hmax y hy2

/-- keyLt is irreflexive. -/
theorem keyLt_irrefl (k : Bool × Int) : keyLt k k = false := by
  rcases k with ⟨b, v⟩
  cases b <;> simp [keyLt]

/-- keyLt is transitive. -/
theorem keyLt_trans (a b c : Bool × Int) (h1 : keyLt a b = true)
    (h2 : keyLt b c = true) : keyLt a c = true := by
  rcases a with ⟨a1, a2⟩; rcases b with ⟨b1, b2⟩; rcases c with ⟨c1, c2⟩
  cases a1 <;> cases b1 <;> cases c1 <;> simp [keyLt] at h1 h2 ⊢ <;> omega

/-- keyLt is co-transitive. -/
theorem keyLt_co (a b c : Bool × Int) (h1 : keyLt a b = false)
    (h2 : keyLt a c = true) : keyLt b c = true := by
  rcases a with ⟨a1, a2⟩; rcases b with ⟨b1, b2⟩; rcases c with ⟨c1, c2⟩
  cases a1 <;> cases b1 <;> cases c1 <;> simp [keyLt] at h1 h2 ⊢ <;> omega

/-- iLt is irreflexive. -/
theorem iLt_irrefl (k : Int) : iLt k k = false := by simp [iLt]

/-- iLt is transitive. -/
theorem iLt_trans (a b c : Int) (h1 : iLt a b = true) (h2 : iLt b c = true) :
    iLt a c = true := by
  simp [iLt] at h1 h2 ⊢; omega

/-- iLt is co-transitive. -/
theorem iLt_co (a b c : Int) (h1 : iLt a b = false) (h2 : iLt a c = true) :
    iLt b c = true := by
  simp [iLt] at h1 h2 ⊢; omega

/-- An element of an enumFrom split sits at the position its prefix
determines. -/
theorem enumFrom_split_idx {α : Type} :
    ∀ (l : List α) (n : Nat) (pre : List (Nat × α)) (e : Nat × α)
      (post : List (Nat × α)),
      List.enumFrom n l = pre ++ e :: post → e.1 = n + pre.length := by
  intro l
  induction l with
  | nil => intro n pre e post h; cases pre <;> simp [List.enumFrom] at h
  | cons x xs ih =>
    intro n pre e post h
    cases pre with
    | nil =>
      simp only [List.enumFrom, List.nil_append] at h
      rw [← (List.cons.inj h).1]
      simp
    | cons p ps =>
      simp only [List.enumFrom, List.cons_append] at h
      have h2 := (List.cons.inj h).2
      have := ih (n + 1) ps e post h2
      simp [this]
      omega

/-- bestPlayer picks the first index attaining the maximal score: the
enumerated score list splits around the winner's entry, with every
earlier score strictly smaller and no score larger. -/
theorem bestPlayer_characterization (players : List Player) (hne : players ≠ []) :
    ∃ pre e post,
      (players.map fun p => p.score).enum = pre ++ e :: post ∧
      Game.bestPlayer players = e.1 ∧
      e.1 = pre.length ∧
      (∀ x ∈ pre, x.2 < e.2) ∧
      (∀ x ∈ (players.map fun p => p.score).enum, x.2 ≤ e.2) := by
  match players with
  | [] => exact absurd rfl hne
  | p0 :: rest =>
    have hdef : Game.bestPlayer (p0 :: rest)
        = (amax iLt (List.enumFrom 1 (rest.map fun p => p.score)) (0, p0.score)).1 := rfl
    have henum : ((p0 :: rest).map fun p => p.score).enum
        = (0, p0.score) :: List.enumFrom 1 (rest.map fun p => p.score) := rfl
    rcases amax_characterization iLt iLt_irrefl iLt_trans iLt_co
        (List.enumFrom 1 (rest.map fun p => p.score)) (0, p0.score) with
      ⟨heq, hall⟩ | ⟨L1, e, L2, hsplit, heq, hlt, hpre, hmax⟩
    · refine ⟨[], (0, p0.score), List.enumFrom 1 (rest.map fun p => p.score),
        by rw [henum]; rfl, by rw [hdef, heq], rfl, by simp, ?_⟩
      intro x hx
      rw [henum] at hx
      rcases List.mem_cons.mp hx with rfl | hx2
      · exact le_refl _
      · have := hall x hx2
        simp [iLt] at this
        omega
    · refine ⟨(0, p0.score) :: L1, e, L2, by rw [henum, hsplit]; rfl,
        by rw [hdef, heq], ?_, ?_, ?_⟩
      · have := enumFrom_split_idx _ 1 L1 e L2 hsplit
        simp [this]
        omega
      · intro x hx
        rcases List.mem_cons.mp hx with rfl | hx2
        · simp [iLt] at hlt
          omega
        · have := hpre x hx2
          simp [iLt] at this
          omega
      · intro x hx
        rw [henum] at hx
        rcases List.mem_cons.mp hx with rfl | hx2
        · simp [iLt] at hlt
          omega
        · have := hmax x hx2
          simp [iLt] at this
          omega

/-- Claim C6: when a pass succeeds and, after advancing, the pool is
empty and no player holds any tile with a legal placement, the game ends
by stalemate: phase becomes finished and the winner is the player with
the highest score, ties resolved in favor of the lowest player index
(every earlier player has a strictly smaller score). -/
theorem passTurn_stalemate_best_player (g : Game) (player : Player)
    (hphase : g.phase = .playing)
    (hp : g.players.get? g.currentPlayerIndex = some player)
    (hdraw : g.drawnThisTurn = true ∨ g.pool = [])
    (hcant : Game.canPlay g (g.currentPlayerIndex : Int) = false)
    (hpool : g.pool = [])
    (hstale : ∀ q ∈ g.players, ∀ t ∈ q.tiles,
        Board.getValidPlacements g.board t.values = []) :
    ∃ (g' : Game) (res : PassResult) (w : Nat),
      Game.passTurn g g.currentPlayerIndex = some (g', res) ∧
      res.success = true ∧ res.gameOver = true ∧ res.winner = some w ∧
      g'.phase = .finished ∧ g'.winner = (w : Int) ∧
      ∃ pre e post,
        (g'.players.map fun q => q.score).enum = pre ++ e :: post ∧
        w = e.1 ∧ e.1 = pre.length ∧
        (∀ x ∈ pre, x.2 < e.2) ∧
        (∀ x ∈ (g'.players.map fun q => q.score).enum, x.2 ≤ e.2) := by
  have hmd : ¬(¬g.drawnThisTurn = true ∧ 0 < g.pool.length) := by
    rw [hpool]; simp
  have hplayers1 : ∀ q ∈ (g.players.set g.currentPlayerIndex
      { player with score := max 0 (player.score - 10) }), ∀ t ∈ q.tiles,
      Board.getValidPlacements g.board t.values = [] := by
    intro q hq t ht
    rcases List.mem_or_eq_of_mem_set hq with hq2 | rfl
    · exact hstale q hq2 t ht
    · exact hstale player (List.get?_mem hp) t ht
  have hstale1 : Game.isStalemate (Game.nextTurn { g with
      players := g.players.set g.currentPlayerIndex
        { player with score := max 0 (player.score - 10) }
      lastAction := some (.passA g.currentPlayerIndex) }) = true := by
    unfold Game.isStalemate
    rw [if_neg (by simp [Game.nextTurn, hpool])]
    rw [List.all_eq_true]
    intro q hq
    rw [List.all_eq_true]
    intro t ht
    simp only [Game.nextTurn] at hq ⊢
    have := hplayers1 q hq t ht
    simp [this]
  have hc0 : ¬(g.phase ≠ Phase.playing) := by simp [hphase]
  have hcun : ¬(g.currentPlayerIndex ≠ g.currentPlayerIndex) := by simp
  simp only [Game.passTurn, hc0, hcun, if_false, hmd, hcant,
    Bool.false_eq_true, hp, hstale1, ite_true, ite_false]
  refine ⟨_, _, _, rfl, rfl, rfl, rfl, rfl, rfl, ?_⟩
  have hlen0 : 0 < g.players.length := by
    by_contra hc
    rw [List.get?_eq_none.mpr (by omega)] at hp
    cases hp
  have hne : (Game.nextTurn { g with
      players := g.players.set g.currentPlayerIndex
        { player with score := max 0 (player.score - 10) }
      lastAction := some (.passA g.currentPlayerIndex) }).players ≠ [] := by
    simp only [Game.nextTurn]
    intro hnil
    have hl := congrArg List.length hnil
    simp only [List.length_set, List.length_nil] at hl
    omega
  obtain ⟨pre, e, post, hsp, hbp, hidx, hprelt, hmax⟩ :=
    bestPlayer_characterization _ hne
  exact ⟨pre, e, post, hsp, hbp, hidx, hprelt, hmax⟩

/-- Witness for C6: the lone tileless player passes on an empty pool and
the game ends in stalemate with that player as winner. -/
theorem passTurn_stalemate_best_player_witness :
    ∃ (g' : Game) (res : PassResult) (w : Nat),
      Game.passTurn gPass gPass.currentPlayerIndex = some (g', res) ∧
      res.success = true ∧ res.gameOver = true ∧ res.winner = some w ∧
      g'.phase = .finished ∧ g'.winner = (w : Int) ∧
      ∃ pre e post,
        (g'.players.map fun q => q.score).enum = pre ++ e :: post ∧
        w = e.1 ∧ e.1 = pre.length ∧
        (∀ x ∈ pre, x.2 < e.2) ∧
        (∀ x ∈ (g'.players.map fun q => q.score).enum, x.2 ≤ e.2) :=
  passTurn_stalemate_best_player gPass ⟨"a", "A", [], 3⟩ rfl rfl (Or.inr rfl)
    (by decide) rfl (by decide)

/-- Dealing preserves the number of players. -/
theorem dealGo_length (n : Nat) : ∀ (ps : List Player) (pool : List Tile),
    (dealGo n ps pool).1.length = ps.length := by
  intro ps
  induction ps with
  | nil => intro pool; rfl
  | cons p ps ih => intro pool; simp [dealGo, ih]

/-- With enough tiles, every dealt player gets exactly n tiles and a
score of 0. -/
theorem dealGo_hands (n : Nat) : ∀ (ps : List Player) (pool : List Tile),
    n * ps.length ≤ pool.length →
    ∀ q ∈ (dealGo n ps pool).1, q.score = 0 ∧ q.tiles.length = n := by
  intro ps
  induction ps with
  | nil => intro pool h q hq; simp [dealGo] at hq
  | cons p ps ih =>
    intro pool h q hq
    rw [List.length_cons, Nat.mul_succ] at h
    simp only [dealGo, List.mem_cons] at hq
    rcases hq with rfl | hq2
    · exact ⟨rfl, by simp [List.length_take]; omega⟩
    · apply ih (pool.drop n) _ q hq2
      rw [List.length_drop]
      omega

/-- The dealt hands in order, concatenated with the leftover pool,
reconstruct the deck. -/
theorem dealGo_flatten (n : Nat) : ∀ (ps : List Player) (pool : List Tile),
    ((dealGo n ps pool).1.map fun q => q.tiles).flatten ++ (dealGo n ps pool).2 = pool := by
  intro ps
  induction ps with
  | nil => intro pool; simp [dealGo]
  | cons p ps ih =>
    intro pool
    simp only [dealGo, List.map_cons, List.flatten_cons, List.append_assoc]
    rw [ih]
    exact List.take_append_drop n pool

/-- The leftover pool after dealing. -/
theorem dealGo_pool (n : Nat) : ∀ (ps : List Player) (pool : List Tile),
    (dealGo n ps pool).2 = pool.drop (n * ps.length) := by
  intro ps
  induction ps with
  | nil => intro pool; simp [dealGo]
  | cons p ps ih =>
    intro pool
    simp only [dealGo, ih, List.drop_drop, List.length_cons, Nat.mul_succ]
    congr 1
    omega

/-- Every tile in a dealt hand came from the deck. -/
theorem dealGo_mem (n : Nat) (ps : List Player) (pool : List Tile) (q : Player)
    (hq : q ∈ (dealGo n ps pool).1) (t : Tile) (ht : t ∈ q.tiles) : t ∈ pool := by
  rw [← dealGo_flatten n ps pool]
  exact List.mem_append_left _
    (List.mem_flatten.mpr ⟨q.tiles, List.mem_map.mpr ⟨q, hq, rfl⟩, ht⟩)

/-- Every catalog tile's (isTriple, sum) key strictly beats the
findStarter seed (false, -1). -/
theorem generateAll_key_pos :
    ∀ t ∈ Tiles.generateAll, keyLt (false, -1) (tileKey t) = true := by decide

/-- Every handPairs entry names a player index and one of that player's
tiles. -/
theorem handPairs_mem (ps : List Player) (x : Nat × (Bool × Int))
    (hx : x ∈ handPairs ps) :
    ∃ q, ps.get? x.1 = some q ∧ ∃ t ∈ q.tiles, tileKey t = x.2 := by
  unfold handPairs at hx
  rcases List.mem_flatMap.mp hx with ⟨ip, hip, hx2⟩
  rcases List.mem_map.mp hx2 with ⟨t, ht, rfl⟩
  exact ⟨ip.2, List.mem_enum_iff_get?.mp hip, t, ht, rfl⟩

/-- Claim C5 (amended): start() on a waiting game with 1 to 8 players
moves to phase playing, deals 9 tiles per player when there are at most
2 players and 7 otherwise, resets all scores to 0, leaves the rest of
the shuffled 56-tile catalog as the pool (hands ++ pool = deck), and
picks as starter the first (player, hand-tile) pair carrying the
lexicographically maximal (isTriple, sum) key: triples beat all
non-triples regardless of sum, higher sums win within each class, and
ties go to the first occurrence in player/hand order.  (With 9 or more
players the 56-tile catalog cannot fill every hand; see the
counterexample.) -/
theorem start_spec (g : Game) (deck : List Tile)
    (hphase : g.phase = .waiting)
    (h1 : 1 ≤ g.players.length) (h8 : g.players.length ≤ 8)
    (hdeck : deck.Perm Tiles.generateAll) :
    (Game.start deck g).phase = .playing ∧
    (Game.start deck g).players.length = g.players.length ∧
    (∀ q ∈ (Game.start deck g).players,
      q.score = 0 ∧ q.tiles.length = (if g.players.length ≤ 2 then 9 else 7)) ∧
    (((Game.start deck g).players.map fun q => q.tiles).flatten
      ++ (Game.start deck g).pool = deck) ∧
    (Game.start deck g).pool.length
      = 56 - (if g.players.length ≤ 2 then 9 else 7) * g.players.length ∧
    ∃ L1 e L2,
      handPairs (Game.start deck g).players = L1 ++ e :: L2 ∧
      (Game.start deck g).currentPlayerIndex = e.1 ∧
      (∀ x ∈ L1, keyLt x.2 e.2 = true) ∧
      (∀ x ∈ handPairs (Game.start deck g).players, keyLt e.2 x.2 = false) ∧
      ∃ q, (Game.start deck g).players.get? e.1 = some q ∧
        ∃ t ∈ q.tiles, tileKey t = e.2 := by
  have hdl : deck.length = 56 := by
    rw [hdeck.length_eq]
    rfl
  have hcap : (if g.players.length ≤ 2 then 9 else 7) * g.players.length
      ≤ deck.length := by
    rw [hdl]
    by_cases hc : g.players.length ≤ 2 <;> simp [hc] <;> omega
  have hgp : (Game.start deck g).players
      = (dealGo (if g.players.length ≤ 2 then 9 else 7) g.players deck).1 := rfl
  have hgpool : (Game.start deck g).pool
      = (dealGo (if g.players.length ≤ 2 then 9 else 7) g.players deck).2 := rfl
  have hgcur : (Game.start deck g).currentPlayerIndex
      = Game.findStarter
          (dealGo (if g.players.length ≤ 2 then 9 else 7) g.players deck).1 := rfl
  refine ⟨rfl, ?_, ?_, ?_, ?_, ?_⟩
  · rw [hgp]
    exact dealGo_length _ _ _
  · rw [hgp]
    exact dealGo_hands _ _ _ hcap
  · rw [hgp, hgpool]
    exact dealGo_flatten _ _ _
  · rw [hgpool, dealGo_pool, List.length_drop, hdl]
  · rcases amax_characterization keyLt keyLt_irrefl keyLt_trans keyLt_co
        (handPairs (dealGo (if g.players.length ≤ 2 then 9 else 7) g.players deck).1)
        (0, (false, -1)) with ⟨heq, hall⟩ | ⟨L1, e, L2, hsplit, heq, hlt, hpre, hmax⟩
    · exfalso
      have hlen := dealGo_length (if g.players.length ≤ 2 then 9 else 7) g.players deck
      cases hd : (dealGo (if g.players.length ≤ 2 then 9 else 7) g.players deck).1 with
      | nil => rw [hd] at hlen; simp at hlen; omega
      | cons q0 rest =>
        have hq0 : q0 ∈ (dealGo (if g.players.length ≤ 2 then 9 else 7) g.players deck).1 := by
          rw [hd]; exact List.mem_cons_self _ _
        obtain ⟨hs0, hl0⟩ := dealGo_hands _ _ _ hcap q0 hq0
        have hl0p : 0 < q0.tiles.length := by
          rw [hl0]
          by_cases hc : g.players.length ≤ 2 <;> simp [hc]
        cases htl : q0.tiles with
        | nil => rw [htl] at hl0p; simp at hl0p
        | cons t0 ts =>
          have hx0 : ((0 : Nat), tileKey t0)
              ∈ handPairs (dealGo (if g.players.length ≤ 2 then 9 else 7) g.players deck).1 := by
            rw [hd]
            apply List.mem_flatMap.mpr
            refine ⟨(0, q0), ?_, ?_⟩
            · exact List.mem_cons_self _ _
            · simp [htl]
          have hfalse := hall _ hx0
          have ht0deck : t0 ∈ deck :=
            dealGo_mem _ _ _ q0 hq0 t0 (by rw [htl]; exact List.mem_cons_self _ _)
          have htrue := generateAll_key_pos t0 (hdeck.mem_iff.mp ht0deck)
          rw [hfalse] at htrue
          cases htrue
    · refine ⟨L1, e, L2, hsplit, ?_, hpre, hmax, ?_⟩
      · rw [hgcur]
        unfold Game.findStarter
        rw [heq]
      · have he : e ∈ handPairs (dealGo (if g.players.length ≤ 2 then 9 else 7) g.players deck).1 := by
          rw [hsplit]
          exact List.mem_append_right _ (List.mem_cons_self _ _)
        exact handPairs_mem _ e he

/-- Witness for C5's amended theorem: the one-player lobby started with
the identity shuffle of the catalog. -/
theorem start_spec_witness :
    (Game.start Tiles.generateAll gReady).phase = .playing ∧
    (Game.start Tiles.generateAll gReady).players.length = gReady.players.length ∧
    (∀ q ∈ (Game.start Tiles.generateAll gReady).players,
      q.score = 0 ∧ q.tiles.length = (if gReady.players.length ≤ 2 then 9 else 7)) ∧
    (((Game.start Tiles.generateAll gReady).players.map fun q => q.tiles).flatten
      ++ (Game.start Tiles.generateAll gReady).pool = Tiles.generateAll) ∧
    (Game.start Tiles.generateAll gReady).pool.length
      = 56 - (if gReady.players.length ≤ 2 then 9 else 7) * gReady.players.length ∧
    ∃ L1 e L2,
      handPairs (Game.start Tiles.generateAll gReady).players = L1 ++ e :: L2 ∧
      (Game.start Tiles.generateAll gReady).currentPlayerIndex = e.1 ∧
      (∀ x ∈ L1, keyLt x.2 e.2 = true) ∧
      (∀ x ∈ handPairs (Game.start Tiles.generateAll gReady).players,
        keyLt e.2 x.2 = false) ∧
      ∃ q, (Game.start Tiles.generateAll gReady).players.get? e.1 = some q ∧
        ∃ t ∈ q.tiles, tileKey t = e.2 :=
  start_spec gReady Tiles.generateAll rfl (by decide) (by decide)
    (List.Perm.refl _)

/-- Counterexample for C5 as frozen: with 9 players the catalog runs
out, so the ninth player's hand is empty rather than holding 7 tiles. -/
theorem start_nine_players_short_hand :
    2 < gNine.players.length ∧
    ((Game.start Tiles.generateAll gNine).players.get? 8).map
        (fun q => q.tiles.length) = some 0 ∧ (0 : Nat) ≠ 7 := by
  refine ⟨by decide, ?_, by decide⟩
  rfl

/-- Looking up the just-placed cell returns the new tile. -/
theorem get_place_self (b : Board) (r c : Int) (v : V3) (tid pid : Nat) :
    Board.get (Board.place b r c v tid pid) r c = some ⟨v, tid, pid⟩ := by
  unfold Board.get Board.place
  rw [List.find?_cons_of_pos _ (by simp)]
  rfl

/-- Filtering out one key leaves lookups of every other key unchanged. -/
theorem find?_filter_key (b : Board) (r c x y : Int) (h : ¬((x, y) = (r, c))) :
    List.find? (fun e => e.1 == (x, y)) (b.filter fun e => !(e.1 == (r, c)))
      = List.find? (fun e => e.1 == (x, y)) b := by
  induction b with
  | nil => rfl
  | cons e rest ih =>
    rw [List.filter_cons]
    by_cases hf : e.1 = (r, c)
    · rw [if_neg (by simp [hf]), ih,
        List.find?_cons_of_neg _ (by simp [hf]; intro h1 h2; exact h (by rw [← h1, ← h2]))]
    · rw [if_pos (by simp [hf])]
      by_cases he : e.1 = (x, y)
      · rw [List.find?_cons_of_pos _ (by simp [he]),
          List.find?_cons_of_pos _ (by simp [he])]
      · rw [List.find?_cons_of_neg _ (by simp [he]),
          List.find?_cons_of_neg _ (by simp [he]), ih]

/-- Looking up any other cell after a placement is unchanged. -/
theorem get_place_ne (b : Board) (r c : Int) (v : V3) (tid pid : Nat)
    (x y : Int) (h : ¬(x = r ∧ y = c)) :
    Board.get (Board.place b r c v tid pid) x y = Board.get b x y := by
  unfold Board.get Board.place
  rw [List.find?_cons_of_neg _ (by simp; intro h1 h2; exact h ⟨h1.symm, h2.symm⟩)]
  rw [find?_filter_key _ _ _ _ _ (by simp; intro h1 h2; exact h ⟨h1, h2⟩)]

/-- A placement accepted by isValid targets an empty cell and matches
every occupied neighbor on both corner-index pairs. -/
theorem isValid_matches (b : Board) (r c : Int) (v : V3)
    (h : Board.isValid b r c v = true) :
    Board.get b r c = none ∧
    ∀ n ∈ Board.neighbors r c, ∀ t, Board.get b n.row n.col = some t →
      Board.pairsOk v n t = true := by
  unfold Board.isValid at h
  by_cases h1 : Board.has b r c
  · rw [if_pos h1] at h
    cases h
  · have hnone : Board.get b r c = none := by
      revert h1
      unfold Board.has
      cases Board.get b r c <;> simp
    refine ⟨hnone, ?_⟩
    by_cases h2 : Board.size b = 0
    · intro n hn t ht
      have hb : b = [] := List.length_eq_zero.mp h2
      rw [hb] at ht
      cases ht
    · rw [if_neg h1, if_neg (by simpa using h2), validLoop_eq_true_iff] at h
      intro n hn t ht
      have := h.2 n hn
      rw [ht] at this
      simpa using this

/-- Each adjacency-table entry has a reverse entry at the neighbor cell
with the offset negated and the my/their index pairs swapped. -/
theorem neighborDefs_symm (r c : Int) (n : NbrDef)
    (hn : n ∈ Board.neighborDefs r c) :
    ∃ m ∈ Board.neighborDefs (r + n.dr) (c + n.dc),
      r + n.dr + m.dr = r ∧ c + n.dc + m.dc = c ∧
      m.my = n.their ∧ m.their = n.my := by
  unfold Board.neighborDefs at hn ⊢
  by_cases hu : Board.isUp r c
  · have h0 : (r + c) % 2 = 0 := by simpa [Board.isUp] using hu
    rw [if_pos hu] at hn
    simp only [upNeighbors, List.mem_cons, List.not_mem_nil, or_false] at hn
    rcases hn with rfl | rfl | rfl
    · rw [if_neg (by simp [Board.isUp]; omega)]
      exact ⟨⟨0, 1, (2, 0), (0, 2)⟩, by simp [downNeighbors], by dsimp only; omega, by dsimp only; omega, rfl, rfl⟩
    · rw [if_neg (by simp [Board.isUp]; omega)]
      exact ⟨⟨0, -1, (1, 0), (0, 1)⟩, by simp [downNeighbors], by dsimp only; omega, by dsimp only; omega, rfl, rfl⟩
    · rw [if_neg (by simp [Board.isUp]; omega)]
      exact ⟨⟨-1, 0, (1, 2), (2, 1)⟩, by simp [downNeighbors], by dsimp only; omega, by dsimp only; omega, rfl, rfl⟩
  · have h0 : (r + c) % 2 = 1 := by
      have := hu
      simp [Board.isUp] at this
      omega
    rw [if_neg hu] at hn
    simp only [downNeighbors, List.mem_cons, List.not_mem_nil, or_false] at hn
    rcases hn with rfl | rfl | rfl
    · rw [if_pos (by simp [Board.isUp]; omega)]
      exact ⟨⟨0, 1, (0, 1), (1, 0)⟩, by simp [upNeighbors], by dsimp only; omega, by dsimp only; omega, rfl, rfl⟩
    · rw [if_pos (by simp [Board.isUp]; omega)]
      exact ⟨⟨0, -1, (0, 2), (2, 0)⟩, by simp [upNeighbors], by dsimp only; omega, by dsimp only; omega, rfl, rfl⟩
    · rw [if_pos (by simp [Board.isUp]; omega)]
      exact ⟨⟨1, 0, (2, 1), (1, 2)⟩, by simp [upNeighbors], by dsimp only; omega, by dsimp only; omega, rfl, rfl⟩

/-- Committing a placement accepted by isValid preserves the
edge-matching invariant: the new cell matches all its occupied neighbors
by isValid, each old neighbor matches the new cell by the symmetry of
the adjacency tables, and all other pairs are untouched. -/
theorem edgeInv_place (b : Board) (r c : Int) (v : V3) (tid pid : Nat)
    (hinv : edgeInv b = true) (hval : Board.isValid b r c v = true) :
    edgeInv (Board.place b r c v tid pid) = true := by
  obtain ⟨hnone, hmatch⟩ := isValid_matches b r c v hval
  have hself := get_place_self b r c v tid pid
  have hcell : ∀ x y pt, Board.get (Board.place b r c v tid pid) x y = some pt →
      Board.cellOk (Board.place b r c v tid pid) x y pt.values = true := by
    intro x y pt hpt
    by_cases hxy : x = r ∧ y = c
    · obtain ⟨rfl, rfl⟩ := hxy
      rw [hself] at hpt
      injection hpt with hpt2
      subst hpt2
      unfold Board.cellOk
      rw [List.all_eq_true]
      intro nd hnd
      have hoff : ¬(x + nd.dr = x ∧ y + nd.dc = y) := by
        have hnd2 := hnd
        unfold Board.neighborDefs at hnd2
        by_cases hu : Board.isUp x y
        · rw [if_pos hu] at hnd2
          simp only [upNeighbors, List.mem_cons, List.not_mem_nil, or_false] at hnd2
          rcases hnd2 with rfl | rfl | rfl <;> dsimp only <;> omega
        · rw [if_neg hu] at hnd2
          simp only [downNeighbors, List.mem_cons, List.not_mem_nil, or_false] at hnd2
          rcases hnd2 with rfl | rfl | rfl <;> dsimp only <;> omega
      rw [get_place_ne b x y _ tid pid _ _ hoff]
      cases hg : Board.get b (x + nd.dr) (y + nd.dc) with
      | none => rfl
      | some t =>
        have hmem : (⟨x + nd.dr, y + nd.dc, nd.my, nd.their⟩ : NbrInst)
            ∈ Board.neighbors x y := List.mem_map.mpr ⟨nd, hnd, rfl⟩
        exact hmatch _ hmem t hg
    · rw [get_place_ne b r c v tid pid x y hxy] at hpt
      have hcellb : Board.cellOk b x y pt.values = true := by
        have hfind := hpt
        unfold Board.get at hfind
        cases hf : List.find? (fun e => e.1 == (x, y)) b with
        | none => rw [hf] at hfind; cases hfind
        | some ent =>
          have hmem := List.mem_of_find?_eq_some hf
          have hkey : ent.1 = (x, y) := by simpa using List.find?_some hf
          have hx := List.all_eq_true.mp hinv ent hmem
          rw [hkey] at hx
          dsimp only at hx
          rw [hpt] at hx
          exact hx
      unfold Board.cellOk
      rw [List.all_eq_true]
      intro nd hnd
      by_cases hnb : x + nd.dr = r ∧ y + nd.dc = c
      · obtain ⟨h1, h2⟩ := hnb
        have hgb2 : Board.get (Board.place b r c v tid pid) (x + nd.dr) (y + nd.dc)
            = some ⟨v, tid, pid⟩ := by rw [h1, h2]; exact hself
        rw [hgb2]
        show Board.pairsOk pt.values ⟨x + nd.dr, y + nd.dc, nd.my, nd.their⟩
          ⟨v, tid, pid⟩ = true
        obtain ⟨m, hm, hmr, hmc, hmy, hth⟩ := neighborDefs_symm x y nd hnd
        rw [h1, h2] at hm
        rw [h1] at hmr
        rw [h2] at hmc
        have hmem : (⟨r + m.dr, c + m.dc, m.my, m.their⟩ : NbrInst)
            ∈ Board.neighbors r c := List.mem_map.mpr ⟨m, hm, rfl⟩
        have hgx : Board.get b (r + m.dr) (c + m.dc) = some pt := by
          rw [hmr, hmc]; exact hpt
        have hpk := hmatch _ hmem pt hgx
        unfold Board.pairsOk at hpk ⊢
        rw [hmy, hth] at hpk
        simp only [Bool.and_eq_true, beq_iff_eq] at hpk ⊢
        exact ⟨hpk.1.symm, hpk.2.symm⟩
      · rw [get_place_ne b r c v tid pid _ _ hnb]
        exact List.all_eq_true.mp hcellb nd hnd
  unfold edgeInv
  rw [List.all_eq_true]
  intro e he
  cases hg : Board.get (Board.place b r c v tid pid) e.1.1 e.1.2 with
  | none => rfl
  | some pt => exact hcell _ _ pt hg

/-- placeTile either leaves the board unchanged (failures) or commits
exactly one isValid-approved placement. -/
theorem placeTile_board_cases (g : Game) (p : Nat) (ti : Int) (row col : Int)
    (rot : Nat) (r : Game × PlaceResult)
    (h : Game.placeTile g p ti row col rot = some r) :
    r.1.board = g.board ∨
    ∃ v tid pidx, Board.isValid g.board row col v = true ∧
      r.1.board = Board.place g.board row col v tid pidx := by
  unfold Game.placeTile at h
  dsimp only at h
  repeat' split at h
  all_goals first
    | exact Option.noConfusion h
    | (injection h with hh
       rw [← hh]
       first
         | exact Or.inl rfl
         | (refine Or.inr ⟨_, _, _, ?_, rfl⟩
            simp_all))

/-- drawTile never changes the board. -/
theorem drawTile_board (g : Game) (p : Nat) (r : Game × DrawResult)
    (h : Game.drawTile g p = some r) : r.1.board = g.board := by
  unfold Game.drawTile at h
  dsimp only at h
  repeat' split at h
  all_goals first
    | exact Option.noConfusion h
    | (injection h with hh; rw [← hh])

/-- passTurn never changes the board. -/
theorem passTurn_board (g : Game) (p : Nat) (r : Game × PassResult)
    (h : Game.passTurn g p = some r) : r.1.board = g.board := by
  unfold Game.passTurn at h
  dsimp only at h
  repeat' split at h
  all_goals first
    | exact Option.noConfusion h
    | (injection h with hh; rw [← hh]; try rfl)

/-- Claim C3: the edge-matching invariant holds in every state reachable
from a started game by placeTile/drawTile/passTurn actions — a fresh
game's board is empty (trivially invariant), start() never touches the
board, drawTile and passTurn leave the board unchanged, and placeTile is
the only action that adds a tile, committing only isValid-approved
placements, which preserve the invariant. -/
theorem edge_matching_invariant :
    (∀ g g', Reachable g g' → edgeInv g.board = true → edgeInv g'.board = true) ∧
    edgeInv Game.init.board = true ∧
    (∀ (deck : List Tile) (g : Game), (Game.start deck g).board = g.board) ∧
    (∀ (g : Game) (p : Nat) (r : Game × DrawResult),
        Game.drawTile g p = some r → r.1.board = g.board) ∧
    (∀ (g : Game) (p : Nat) (r : Game × PassResult),
        Game.passTurn g p = some r → r.1.board = g.board) ∧
    (∀ (g : Game) (p : Nat) (ti : Int) (row col : Int) (rot : Nat)
        (r : Game × PlaceResult),
        Game.placeTile g p ti row col rot = some r →
        r.1.board = g.board ∨
        ∃ v tid pidx, Board.isValid g.board row col v = true ∧
          r.1.board = Board.place g.board row col v tid pidx) := by
  refine ⟨?_, rfl, fun d g => rfl, drawTile_board, passTurn_board, placeTile_board_cases⟩
  intro g g' hreach hinv
  induction hreach with
  | refl => exact hinv
  | tail hab hstep ih =>
    rcases hstep with ⟨p, ti, row, col, rot, res, hstep⟩ | ⟨p, res, hstep⟩ | ⟨p, res, hstep⟩
    · rcases placeTile_board_cases _ _ _ _ _ _ _ hstep with hb | ⟨v, tid, pidx, hv, hb⟩
      · rw [hb]; exact ih
      · rw [hb]; exact edgeInv_place _ _ _ _ _ _ ih hv
    · rw [drawTile_board _ _ _ hstep]; exact ih
    · rw [passTurn_board _ _ _ hstep]; exact ih

/-- Witness for C3: one draw step from a one-tile board keeps the
invariant. -/
theorem edge_matching_invariant_witness : edgeInv gDrawn.board = true :=
  edge_matching_invariant.1 gDraw gDrawn
    (Relation.ReflTransGen.single
      (Or.inr (Or.inl ⟨0, ⟨true, none, some t123, some 0⟩, by decide⟩)))
    (by decide)
